import Mathlib

/-!
Verification of the batched periodic piecewise-linear interpolation kernel
(`exoplanet/ops/interp/interp_op.cc`).

The C++ element type `T` (float/double) is modelled as `ℚ` with exact
arithmetic; `std::fmod` is the exact truncating modulo
`a - b * trunc (a / b)`.  `int64` values are modelled as `ℤ`, with the C++
`/` on `int64` modelled as `Int.tdiv` (truncation toward zero).  Arrays are
`List ℚ` indexed through a total read (`getI`, default `0`) mirroring raw
pointer access.  The output fraction `a`, written only on the interior
branch, is modelled as `Option ℚ` with `none` for "left at its allocated
default".  The row loop of `InterpOp::Compute` is `computeRows`; the
`Shard` work partitioning is modelled by `runChunks` over explicit chunk
lists.
-/

/-- Truncation toward zero of a rational, as C float->int conversion. -/
def rtrunc (q : ℚ) : ℤ :=
  if 0 ≤ q then ⌊q⌋ else ⌈q⌉

/-- Exact model of `std::fmod`: `a - b * trunc (a / b)`. -/
def fmod (a b : ℚ) : ℚ :=
  a - b * (rtrunc (a / b) : ℚ)

/-- Total read of a list at a signed index, as the C++ pointer read
`xk[i]` (defaulting to `0`; the kernel only reads in-bounds indices on
shape-valid inputs). -/
def getI (x : List ℚ) (i : ℤ) : ℚ :=
  x.getD i.toNat 0

/-- The midpoint probe `(low + high) / 2` of `search_sorted`, with C++
`int64` division (truncation toward zero). -/
def probeOf (low high : ℤ) : ℤ :=
  Int.tdiv (low + high) 2

/-- The loop of `search_sorted`, with explicit fuel (the loop runs while
`high - low > 1`; fuel `N + 1` always suffices, see the fuel-irrelevance
theorem). `value < v` is the C++ test `v > value`. -/
def searchLoop (x : List ℚ) (value : ℚ) : ℕ → ℤ → ℤ → ℤ
  | 0, _, high => high
  | fuel + 1, low, high =>
    if 1 < high - low then
      if value < getI x (probeOf low high) then
        searchLoop x value fuel low (probeOf low high)
      else
        searchLoop x value fuel (probeOf low high) high
    else high

/-- `search_sorted(N, x, value)`: binary search over open bounds
`(-1, N)`. -/
def search_sorted (N : ℕ) (x : List ℚ) (value : ℚ) : ℤ :=
  searchLoop x value (N + 1) (-1) (N : ℤ)

/-- Per-query wrapping step of the work lambda: if `flag` then fold by the
truncating modulo (twice for negative values), else pass through. -/
def wrap (flag : Bool) (period value : ℚ) : ℚ :=
  if flag then
    if 0 ≤ value then fmod value period
    else fmod (fmod value period + period) period
  else value

/-- The per-row flag `period > 0` applied to the wrap step: the wrapped
value used for a query of a row with period `period`. -/
def wrapValue (period value : ℚ) : ℚ :=
  wrap (decide (0 < period)) period value

/-- One query's three outputs: value `v`, fraction `a` (`none` when the
branch does not write it), index `inds`. -/
structure OutElem where
  v : ℚ
  a : Option ℚ
  inds : ℤ
deriving DecidableEq, Repr

/-- The body of the work lambda for one query value `tval`: wrap, then
clamp low / clamp high / interpolate. -/
def interpElem (M : ℕ) (x y : List ℚ) (flag : Bool) (period tval : ℚ) :
    OutElem :=
  let value := wrap flag period tval
  if value ≤ getI x 0 then
    ⟨getI y 0, none, 0⟩
  else if getI x ((M : ℤ) - 1) ≤ value then
    ⟨getI y ((M : ℤ) - 1), none, (M : ℤ) + 1⟩
  else
    let ind := search_sorted M x value
    let a0 := (value - getI x (ind - 1)) / (getI x ind - getI x (ind - 1))
    ⟨a0 * getI y ind + (1 - a0) * getI y (ind - 1), some a0, ind⟩

/-- The `n`-th query's output in a row, as a function of the query index
(the per-element work the sharder distributes). -/
def rowElem (M : ℕ) (xk yk : List ℚ) (period : ℚ) (tk : List ℚ) (n : ℕ) :
    OutElem :=
  interpElem M xk yk (decide (0 < period)) period (tk.getD n 0)

/-- Sequential execution of one row's `N` queries. -/
def interpRow (M : ℕ) (xk yk : List ℚ) (period : ℚ) (tk : List ℚ) :
    List OutElem :=
  tk.map (interpElem M xk yk (decide (0 < period)) period)

/-- Row `k` of a flattened data buffer with row length `len`. -/
def sliceRow (data : List ℚ) (k len : ℕ) : List ℚ :=
  (data.drop (k * len)).take len

/-- The sequential batch-row loop of `InterpOp::Compute`. -/
def computeRows (size N M : ℕ) (tdata pdata xdata ydata : List ℚ) :
    List OutElem :=
  (List.range size).flatMap fun k =>
    interpRow M (sliceRow xdata k M) (sliceRow ydata k M)
      (pdata.getD k 0) (sliceRow tdata k N)

/-- The four input tensors: shapes (dimension-size lists) and flattened
row-major data. -/
structure InterpInput where
  tshape : List ℕ
  pshape : List ℕ
  xshape : List ℕ
  yshape : List ℕ
  tdata : List ℚ
  pdata : List ℚ
  xdata : List ℚ
  ydata : List ℚ

/-- The outer-dimension consistency loop: for each `k < ndim - 1`,
`x.dim_size(k) == t.dim_size(k)` and `p.dim_size(k) == t.dim_size(k)`. -/
def checkOuterDims (tshape xshape pshape : List ℕ) (ndim : ℕ) : Bool :=
  (List.range (ndim - 1)).all fun k =>
    decide (xshape.getD k 0 = tshape.getD k 0) &&
    decide (pshape.getD k 0 = tshape.getD k 0)

/-- Batch size: product of the outer dimensions of `t`. -/
def outerSize (tshape : List ℕ) (ndim : ℕ) : ℕ :=
  ((List.range (ndim - 1)).map fun k => tshape.getD k 0).prod

/-- `InterpOp::Compute`: shape validation in source order, then the row
loop; outputs are the three flattened arrays `v`, `a`, `inds`.  A failed
`OP_REQUIRES` check is an `Except.error` carrying the source message, and
no output is produced. -/
def interpCompute (inp : InterpInput) :
    Except String (List ℚ × List (Option ℚ) × List ℤ) :=
  let ndim := inp.tshape.length
  if ndim < 1 then
    .error "t must be at least 1D"
  else if inp.pshape.length ≠ ndim - 1 then
    .error "p must have the dimension len(t.shape) - 1"
  else if inp.xshape.length ≠ ndim then
    .error "x and t must have the same number of dimensions"
  else if inp.yshape ≠ inp.xshape then
    .error "x and y must be the same shape"
  else if ¬ checkOuterDims inp.tshape inp.xshape inp.pshape ndim then
    .error "incompatible dimensions"
  else
    let N := inp.tshape.getD (ndim - 1) 0
    let M := inp.xshape.getD (ndim - 1) 0
    let outs := computeRows (outerSize inp.tshape ndim) N M
      inp.tdata inp.pdata inp.xdata inp.ydata
    .ok (outs.map OutElem.v, outs.map OutElem.a, outs.map OutElem.inds)

/-- One sharded chunk `[b, e)`: writes `f n` at every owned index, leaves
the rest of the output buffer untouched. -/
def runChunk (f : ℕ → OutElem) (out : ℕ → Option OutElem) (b e : ℕ) :
    ℕ → Option OutElem :=
  fun i => if b ≤ i ∧ i < e then some (f i) else out i

/-- Executing a list of chunks in order over an output buffer. -/
def runChunks (f : ℕ → OutElem) :
    List (ℕ × ℕ) → (ℕ → Option OutElem) → (ℕ → Option OutElem)
  | [], out => out
  | c :: rest, out => runChunks f rest (runChunk f out c.1 c.2)

/-- The contiguous disjoint chunks starting at `start` with the given
sizes: `[start, start+s₀)`, `[start+s₀, start+s₀+s₁)`, ... -/
def chunksFrom (start : ℕ) : List ℕ → List (ℕ × ℕ)
  | [] => []
  | s :: rest => (start, start + s) :: chunksFrom (start + s) rest

/-! ### Binary-search helper lemmas -/

lemma tdiv_two_bounds (a : ℤ) :
    a - 1 ≤ 2 * Int.tdiv a 2 ∧ 2 * Int.tdiv a 2 ≤ a + 1 := by
  rcases a with m | m
  · rw [show Int.tdiv (Int.ofNat m) 2 = ((m / 2 : ℕ) : ℤ) from rfl,
      show (Int.ofNat m : ℤ) = (m : ℤ) from rfl]
    omega
  · rw [show Int.tdiv (Int.negSucc m) 2 = -(((m + 1) / 2 : ℕ) : ℤ) from rfl,
      show (Int.negSucc m : ℤ) = -((m : ℤ) + 1) from rfl]
    omega

lemma probeOf_bounds (low high : ℤ) (h : 1 < high - low) :
    low < probeOf low high ∧ probeOf low high < high := by
  have hb := tdiv_two_bounds (low + high)
  unfold probeOf
  omega

lemma searchLoop_fuel_congr (x : List ℚ) (value : ℚ) :
    ∀ (fuel fuel' : ℕ) (low high : ℤ),
      high - low ≤ (fuel : ℤ) + 1 → high - low ≤ (fuel' : ℤ) + 1 →
      searchLoop x value fuel low high = searchLoop x value fuel' low high := by
  intro fuel
  induction fuel with
  | zero =>
    intro fuel' low high h h'
    cases fuel' with
    | zero => rfl
    | succ m =>
      show searchLoop x value 0 low high = searchLoop x value (m + 1) low high
      simp only [searchLoop]
      rw [if_neg (by omega)]
  | succ n ih =>
    intro fuel' low high h h'
    cases fuel' with
    | zero =>
      show searchLoop x value (n + 1) low high = searchLoop x value 0 low high
      simp only [searchLoop]
      rw [if_neg (by omega)]
    | succ m =>
      show searchLoop x value (n + 1) low high = searchLoop x value (m + 1) low high
      simp only [searchLoop]
      by_cases hc : 1 < high - low
      · rw [if_pos hc, if_pos hc]
        have hp := probeOf_bounds low high hc
        by_cases hv : value < getI x (probeOf low high)
        · rw [if_pos hv, if_pos hv]
          exact ih m low (probeOf low high) (by omega) (by omega)
        · rw [if_neg hv, if_neg hv]
          exact ih m (probeOf low high) high (by omega) (by omega)
      · rw [if_neg hc, if_neg hc]

lemma searchLoop_bracket (x : List ℚ) (value : ℚ) (M : ℕ) :
    ∀ (fuel : ℕ) (low high : ℤ),
      high - low ≤ (fuel : ℤ) + 1 → low < high → -1 ≤ low → high ≤ (M : ℤ) →
      (low = -1 ∨ getI x low ≤ value) → (high = (M : ℤ) ∨ value < getI x high) →
      0 ≤ searchLoop x value fuel low high ∧
      searchLoop x value fuel low high ≤ (M : ℤ) ∧
      (searchLoop x value fuel low high = (M : ℤ) ∨
        value < getI x (searchLoop x value fuel low high)) ∧
      (searchLoop x value fuel low high = 0 ∨
        getI x (searchLoop x value fuel low high - 1) ≤ value) := by
  intro fuel
  induction fuel with
  | zero =>
    intro low high hfuel hlh hlo hhi hinvl hinvh
    have hr : searchLoop x value 0 low high = high := rfl
    rw [hr]
    rcases hinvl with h | h
    · exact ⟨by omega, hhi, hinvh, Or.inl (by omega)⟩
    · refine ⟨by omega, hhi, hinvh, Or.inr ?_⟩
      have he : high - 1 = low := by omega
      rw [he]
      exact h
  | succ n ih =>
    intro low high hfuel hlh hlo hhi hinvl hinvh
    by_cases hc : 1 < high - low
    · have hp := probeOf_bounds low high hc
      have hr : searchLoop x value (n + 1) low high =
          (if value < getI x (probeOf low high) then
            searchLoop x value n low (probeOf low high)
          else searchLoop x value n (probeOf low high) high) := by
        simp only [searchLoop, if_pos hc]
      rw [hr]
      by_cases hv : value < getI x (probeOf low high)
      · rw [if_pos hv]
        exact ih low (probeOf low high) (by omega) (by omega) hlo (by omega)
          hinvl (Or.inr hv)
      · rw [if_neg hv]
        exact ih (probeOf low high) high (by omega) (by omega) (by omega) hhi
          (Or.inr (not_lt.1 hv)) hinvh
    · have hr : searchLoop x value (n + 1) low high = high := by
        simp only [searchLoop, if_neg hc]
      rw [hr]
      rcases hinvl with h | h
      · exact ⟨by omega, hhi, hinvh, Or.inl (by omega)⟩
      · refine ⟨by omega, hhi, hinvh, Or.inr ?_⟩
        have he : high - 1 = low := by omega
        rw [he]
        exact h

/-! ### Wrapping helper lemmas -/

lemma fmod_nonneg_lt (a b : ℚ) (ha : 0 ≤ a) (hb : 0 < b) :
    0 ≤ fmod a b ∧ fmod a b < b := by
  have hb0 : b ≠ 0 := ne_of_gt hb
  have hq : 0 ≤ a / b := div_nonneg ha hb.le
  have htr : rtrunc (a / b) = ⌊a / b⌋ := by
    unfold rtrunc
    exact if_pos hq
  have key : fmod a b = b * Int.fract (a / b) := by
    unfold fmod
    rw [htr, ← Int.self_sub_floor, mul_sub, mul_div_cancel₀ a hb0]
  constructor
  · rw [key]
    exact mul_nonneg hb.le (Int.fract_nonneg _)
  · rw [key]
    calc b * Int.fract (a / b) < b * 1 :=
          (mul_lt_mul_left hb).2 (Int.fract_lt_one _)
    _ = b := mul_one b

lemma fmod_neg_bounds (a b : ℚ) (ha : a < 0) (hb : 0 < b) :
    -b < fmod a b ∧ fmod a b ≤ 0 := by
  have hb0 : b ≠ 0 := ne_of_gt hb
  have hq : ¬ 0 ≤ a / b := by
    rw [not_le]
    exact div_neg_of_neg_of_pos ha hb
  have htr : rtrunc (a / b) = ⌈a / b⌉ := by
    unfold rtrunc
    exact if_neg hq
  have key : fmod a b = -(b * ((⌈a / b⌉ : ℚ) - a / b)) := by
    unfold fmod
    rw [htr, mul_sub, mul_div_cancel₀ a hb0]
    ring
  have h1 : (0 : ℚ) ≤ (⌈a / b⌉ : ℚ) - a / b := sub_nonneg.2 (Int.le_ceil _)
  have h2 : (⌈a / b⌉ : ℚ) - a / b < 1 := by
    have := Int.ceil_lt_add_one (a / b)
    linarith
  constructor
  · rw [key, neg_lt, neg_neg]
    calc b * ((⌈a / b⌉ : ℚ) - a / b) < b * 1 := (mul_lt_mul_left hb).2 h2
    _ = b := mul_one b
  · rw [key, neg_nonpos]
    exact mul_nonneg hb.le h1

lemma fmod_eq_self (a b : ℚ) (h0 : 0 ≤ a) (hab : a < b) : fmod a b = a := by
  have hb : 0 < b := lt_of_le_of_lt h0 hab
  have hq : 0 ≤ a / b := div_nonneg h0 hb.le
  have htr : rtrunc (a / b) = ⌊a / b⌋ := by
    unfold rtrunc
    exact if_pos hq
  have hfl : ⌊a / b⌋ = 0 := by
    rw [Int.floor_eq_zero_iff]
    exact ⟨hq, (div_lt_one hb).2 hab⟩
  unfold fmod
  rw [htr, hfl]
  push_cast
  ring

lemma wrapValue_pos_def (period value : ℚ) (hp : 0 < period) :
    wrapValue period value =
      if 0 ≤ value then fmod value period
      else fmod (fmod value period + period) period := by
  unfold wrapValue wrap
  rw [if_pos (by simpa using hp)]

lemma wrapValue_mem (period value : ℚ) (hp : 0 < period) :
    0 ≤ wrapValue period value ∧ wrapValue period value < period := by
  rw [wrapValue_pos_def period value hp]
  by_cases h : 0 ≤ value
  · rw [if_pos h]
    exact fmod_nonneg_lt value period h hp
  · rw [if_neg h]
    have hn := fmod_neg_bounds value period (not_le.1 h) hp
    exact fmod_nonneg_lt _ period (by linarith [hn.1]) hp

/-! ### Claim theorems -/

/-- C5: for every `period > 0` and every query value, the wrapped value
lies in `[0, period)`; it is the truncating modulo for non-negative
values, and for negative values the truncating modulo of
`trunc_mod + period` by `period`. -/
theorem wrap_range (period value : ℚ) (hp : 0 < period) :
    0 ≤ wrapValue period value ∧ wrapValue period value < period ∧
    (0 ≤ value → wrapValue period value = fmod value period) ∧
    (value < 0 →
      wrapValue period value = fmod (fmod value period + period) period) := by
  have hm := wrapValue_mem period value hp
  refine ⟨hm.1, hm.2, ?_, ?_⟩
  · intro h
    rw [wrapValue_pos_def period value hp, if_pos h]
  · intro h
    rw [wrapValue_pos_def period value hp, if_neg (not_le.2 h)]

/-- Witness for C5 at `period = 3`, `value = -5`. -/
theorem wrap_range_witness :
    (0 : ℚ) < 3 ∧ 0 ≤ wrapValue 3 (-5) ∧ wrapValue 3 (-5) < 3 :=
  ⟨by norm_num, (wrap_range 3 (-5) (by norm_num)).1,
   (wrap_range 3 (-5) (by norm_num)).2.1⟩

/-- C6: for a row with period `p[k] ≤ 0` the wrapping step is the
identity on every query value. -/
theorem wrap_passthrough (period : ℚ) (hp : period ≤ 0) (value : ℚ) :
    wrapValue period value = value := by
  have h : ¬ (0 < period) := not_lt.2 hp
  simp [wrapValue, wrap, h]

/-- Witness for C6 at `period = 0`, `value = 7`. -/
theorem wrap_passthrough_witness :
    (0 : ℚ) ≤ 0 ∧ wrapValue 0 7 = 7 :=
  ⟨le_refl 0, wrap_passthrough 0 (le_refl 0) 7⟩

/-- C9: for `period > 0` the wrapping step is idempotent. -/
theorem wrap_idempotent (period value : ℚ) (hp : 0 < period) :
    wrapValue period (wrapValue period value) = wrapValue period value := by
  have hm := wrapValue_mem period value hp
  rw [wrapValue_pos_def period _ hp, if_pos hm.1]
  exact fmod_eq_self _ _ hm.1 hm.2

/-- Witness for C9 at `period = 2`, `value = 5`. -/
theorem wrap_idempotent_witness :
    (0 : ℚ) < 2 ∧ wrapValue 2 (wrapValue 2 5) = wrapValue 2 5 :=
  ⟨by norm_num, wrap_idempotent 2 5 (by norm_num)⟩

/-- C10: `search_sorted` terminates for every length: for `N = 0` it
returns `0` immediately; each iteration picks a probe strictly between
`low` and `high`, so the measure `high - low` strictly decreases, and the
loop's result is independent of any sufficient fuel. -/
theorem search_sorted_terminates :
    (∀ (x : List ℚ) (value : ℚ), search_sorted 0 x value = 0) ∧
    (∀ low high : ℤ, 1 < high - low →
      low < probeOf low high ∧ probeOf low high < high) ∧
    (∀ (x : List ℚ) (value : ℚ) (fuel fuel' : ℕ) (low high : ℤ),
      high - low ≤ (fuel : ℤ) + 1 → high - low ≤ (fuel' : ℤ) + 1 →
      searchLoop x value fuel low high = searchLoop x value fuel' low high) :=
  ⟨fun _ _ => rfl, probeOf_bounds, fun x value => searchLoop_fuel_congr x value⟩

/-- Witness for C10: probe bounds at `(-1, 4)` and fuel-irrelevance of a
concrete search. -/
theorem search_sorted_terminates_witness :
    ((1 : ℤ) < 4 - (-1)) ∧
    ((-1 : ℤ) < probeOf (-1) 4 ∧ probeOf (-1) 4 < 4) ∧
    searchLoop [0, 1, 2] (1/2) 5 (-1) 3 = searchLoop [0, 1, 2] (1/2) 3 (-1) 3 :=
  ⟨by norm_num,
   search_sorted_terminates.2.1 (-1) 4 (by norm_num),
   search_sorted_terminates.2.2 [0, 1, 2] (1/2) 5 3 (-1) 3 (by norm_num)
     (by norm_num)⟩

/-- C1: for a query whose wrapped value lies strictly between `x[0]` and
`x[M-1]`, with `idx` the index returned by the bounded search, the outputs
are `a = (wrapped - x[idx-1]) / (x[idx] - x[idx-1])`,
`v = a * y[idx] + (1 - a) * y[idx-1]`, `inds = idx`. -/
theorem interp_interior_formula (M : ℕ) (x y : List ℚ) (flag : Bool)
    (period tval : ℚ)
    (h1 : getI x 0 < wrap flag period tval)
    (h2 : wrap flag period tval < getI x ((M : ℤ) - 1)) :
    interpElem M x y flag period tval =
      { v := (wrap flag period tval -
               getI x (search_sorted M x (wrap flag period tval) - 1)) /
             (getI x (search_sorted M x (wrap flag period tval)) -
               getI x (search_sorted M x (wrap flag period tval) - 1)) *
             getI y (search_sorted M x (wrap flag period tval)) +
             (1 - (wrap flag period tval -
               getI x (search_sorted M x (wrap flag period tval) - 1)) /
             (getI x (search_sorted M x (wrap flag period tval)) -
               getI x (search_sorted M x (wrap flag period tval) - 1))) *
             getI y (search_sorted M x (wrap flag period tval) - 1),
        a := some ((wrap flag period tval -
               getI x (search_sorted M x (wrap flag period tval) - 1)) /
             (getI x (search_sorted M x (wrap flag period tval)) -
               getI x (search_sorted M x (wrap flag period tval) - 1))),
        inds := search_sorted M x (wrap flag period tval) } := by
  simp only [interpElem]
  rw [if_neg (not_le.2 h1), if_neg (not_le.2 h2)]

/-- Witness for C1: `x = [0, 2]`, `y = [0, 4]`, no wrap, query `1`. -/
theorem interp_interior_formula_witness :
    getI [0, 2] 0 < wrap false 0 1 ∧
    wrap false 0 1 < getI [0, 2] ((2 : ℤ) - 1) ∧
    interpElem 2 [0, 2] [0, 4] false 0 1 = { v := 2, a := some (1/2), inds := 1 } := by
  refine ⟨by with_unfolding_all decide, by with_unfolding_all decide, ?_⟩
  rw [interp_interior_formula 2 [0, 2] [0, 4] false 0 1
    (by with_unfolding_all decide) (by with_unfolding_all decide)]
  with_unfolding_all rfl

/-- C3: a wrapped query `≤ x[0]` clamps to `v = y[0]`, `inds = 0`; else a
wrapped query `≥ x[M-1]` clamps to `v = y[M-1]`, `inds = M+1`; in both
cases `a` is not written (`none`). -/
theorem interp_clamp (M : ℕ) (x y : List ℚ) (flag : Bool)
    (period tval : ℚ) :
    (wrap flag period tval ≤ getI x 0 →
      interpElem M x y flag period tval = { v := getI y 0, a := none, inds := 0 }) ∧
    (getI x 0 < wrap flag period tval →
      getI x ((M : ℤ) - 1) ≤ wrap flag period tval →
      interpElem M x y flag period tval =
        { v := getI y ((M : ℤ) - 1), a := none, inds := (M : ℤ) + 1 }) := by
  constructor
  · intro h
    simp only [interpElem]
    rw [if_pos h]
  · intro h1 h2
    simp only [interpElem]
    rw [if_neg (not_le.2 h1), if_pos h2]

/-- Witness for C3: low clamp at query `-1` and high clamp at query `5`
for `x = [0, 2]`, `y = [7, 9]`. -/
theorem interp_clamp_witness :
    interpElem 2 [0, 2] [7, 9] false 0 (-1) = { v := 7, a := none, inds := 0 } ∧
    interpElem 2 [0, 2] [7, 9] false 0 5 = { v := 9, a := none, inds := 3 } := by
  constructor
  · rw [(interp_clamp 2 [0, 2] [7, 9] false 0 (-1)).1 (by with_unfolding_all decide)]
    with_unfolding_all rfl
  · rw [(interp_clamp 2 [0, 2] [7, 9] false 0 5).2 (by with_unfolding_all decide)
      (by with_unfolding_all decide)]
    with_unfolding_all rfl

/-- C4: the single-row input `x = [0,1,2,3]`, `y = [0,10,20,30]`, `p = 0`,
`t = [-1, 0, 0.5, 1, 2.5, 3, 10]` produces exactly
`v = [0, 0, 5, 10, 25, 30, 30]` and `inds = [0, 0, 1, 2, 3, 5, 5]`. -/
theorem interp_concrete_scenario :
    interpCompute ⟨[7], [], [4], [4], [-1, 0, 1/2, 1, 5/2, 3, 10], [0],
        [0, 1, 2, 3], [0, 10, 20, 30]⟩ =
      .ok ([0, 0, 5, 10, 25, 30, 30],
           [none, none, some (1/2), some 0, some (1/2), none, none],
           [0, 0, 1, 2, 3, 5, 5]) := by
  with_unfolding_all rfl

/-! ### Sharding and validation helper lemmas -/

lemma runChunks_chunksFrom (f : ℕ → OutElem) (sizes : List ℕ) :
    ∀ (start : ℕ) (out : ℕ → Option OutElem) (i : ℕ),
      runChunks f (chunksFrom start sizes) out i =
      runChunk f out start (start + sizes.sum) i := by
  induction sizes with
  | nil =>
    intro start out i
    show out i = runChunk f out start (start + ([] : List ℕ).sum) i
    simp only [runChunk, List.sum_nil]
    rw [if_neg (by omega)]
  | cons s rest ih =>
    intro start out i
    show runChunks f (chunksFrom (start + s) rest)
        (runChunk f out start (start + s)) i = _
    rw [ih (start + s) (runChunk f out start (start + s)) i]
    simp only [runChunk, List.sum_cons]
    split_ifs <;> first | rfl | omega

/-- C8: executing a row's query range `[0, N)` as any list of contiguous,
disjoint chunks (given by chunk sizes summing to `N`) writes, element for
element, the same outputs as executing the work function once on the whole
range `[0, N)`. -/
theorem sharding_invariance (M : ℕ) (xk yk : List ℚ) (period : ℚ)
    (tk : List ℚ) (out : ℕ → Option OutElem) (sizes : List ℕ) (N : ℕ)
    (hN : sizes.sum = N) (i : ℕ) :
    runChunks (rowElem M xk yk period tk) (chunksFrom 0 sizes) out i =
    runChunk (rowElem M xk yk period tk) out 0 N i := by
  subst hN
  simpa using runChunks_chunksFrom (rowElem M xk yk period tk) sizes 0 out i

/-- Witness for C8: chunk sizes `[1, 1]` over `N = 2`, checked at
index `1`. -/
theorem sharding_invariance_witness :
    ([1, 1] : List ℕ).sum = 2 ∧
    runChunks (rowElem 2 [0, 2] [0, 4] 0 [1, 3]) (chunksFrom 0 [1, 1])
        (fun _ => none) 1 =
      runChunk (rowElem 2 [0, 2] [0, 4] 0 [1, 3]) (fun _ => none) 0 2 1 :=
  ⟨rfl, sharding_invariance 2 [0, 2] [0, 4] 0 [1, 3] (fun _ => none) [1, 1] 2 rfl 1⟩

lemma checkOuterDims_iff (tshape xshape pshape : List ℕ) (ndim : ℕ) :
    checkOuterDims tshape xshape pshape ndim = true ↔
    ∀ k < ndim - 1,
      xshape.getD k 0 = tshape.getD k 0 ∧ pshape.getD k 0 = tshape.getD k 0 := by
  simp [checkOuterDims, List.all_eq_true, List.mem_range]

/-- C7: any violated shape constraint (`rank(t) < 1`,
`rank(p) ≠ rank(t) - 1`, `rank(x) ≠ rank(t)`, `shape(y) ≠ shape(x)`, or a
mismatched outer dimension) makes the call fail with an invalid-argument
error, producing no outputs. -/
theorem validation_rejects (inp : InterpInput)
    (h : inp.tshape.length < 1 ∨ inp.pshape.length ≠ inp.tshape.length - 1 ∨
      inp.xshape.length ≠ inp.tshape.length ∨ inp.yshape ≠ inp.xshape ∨
      ∃ k, k < inp.tshape.length - 1 ∧
        (inp.xshape.getD k 0 ≠ inp.tshape.getD k 0 ∨
         inp.pshape.getD k 0 ≠ inp.tshape.getD k 0)) :
    ∃ msg, interpCompute inp = Except.error msg := by
  simp only [interpCompute]
  split_ifs with h1 h2 h3 h4 h5
  · exact ⟨_, rfl⟩
  · exact ⟨_, rfl⟩
  · exact ⟨_, rfl⟩
  · exact ⟨_, rfl⟩
  · exfalso
    rcases h with h | h | h | h | ⟨k, hk, hor⟩
    · exact h1 h
    · exact h2 h
    · exact h3 h
    · exact h4 h
    · have hall := (checkOuterDims_iff inp.tshape inp.xshape inp.pshape
        inp.tshape.length).1 h5 k hk
      rcases hor with h | h
      · exact h hall.1
      · exact h hall.2
  · exact ⟨_, rfl⟩

/-- Witness for C7: `rank(p) = 1 ≠ 0 = rank(t) - 1` is rejected. -/
theorem validation_rejects_witness :
    ∃ msg, interpCompute ⟨[2], [3], [2], [2], [], [], [], []⟩ = Except.error msg :=
  validation_rejects ⟨[2], [3], [2], [2], [], [], [], []⟩
    (Or.inr (Or.inl (by decide)))

/-- C2: for a strictly ascending array `x` of length `M ≥ 2` and a value
with `x[0] < value < x[M-1]`, `search_sorted M x value` is the smallest
index `i` in `[1, M-1]` with `x[i] > value`; in particular a value equal
to an interior knot `x[i]` (`0 < i < M-1`) yields `i + 1`, not `i`. -/
theorem search_sorted_least (x : List ℚ) (value : ℚ) (M : ℕ)
    (hM : M = x.length) (h2 : 2 ≤ M)
    (hsort : ∀ i j : ℕ, i < j → j < M → x.getD i 0 < x.getD j 0)
    (hlo : x.getD 0 0 < value) (hhi : value < x.getD (M - 1) 0) :
    1 ≤ search_sorted M x value ∧ search_sorted M x value ≤ (M : ℤ) - 1 ∧
    value < getI x (search_sorted M x value) ∧
    (∀ i : ℕ, 1 ≤ i → (i : ℤ) < search_sorted M x value →
      x.getD i 0 ≤ value) ∧
    (∀ i : ℕ, 0 < i → i < M - 1 → value = x.getD i 0 →
      search_sorted M x value = (i : ℤ) + 1) := by
  have hb := searchLoop_bracket x value M (M + 1) (-1) (M : ℤ)
    (by push_cast; omega) (by omega) (le_refl _) (le_refl _)
    (Or.inl rfl) (Or.inl rfl)
  rw [show searchLoop x value (M + 1) (-1) (M : ℤ) = search_sorted M x value
    from rfl] at hb
  set r := search_sorted M x value with hrdef
  obtain ⟨hr0, hrM, hup, hdown⟩ := hb
  have h1r : 1 ≤ r := by
    by_contra hlt
    have hr00 : r = 0 := by omega
    rcases hup with h | h
    · omega
    · rw [hr00] at h
      have e : getI x 0 = x.getD 0 0 := rfl
      rw [e] at h
      linarith
  have hrM1 : r ≤ (M : ℤ) - 1 := by
    by_contra hgt
    have hre : r = (M : ℤ) := by omega
    rcases hdown with h | h
    · omega
    · rw [hre] at h
      have e : getI x ((M : ℤ) - 1) = x.getD (M - 1) 0 := by
        unfold getI
        congr 1
        omega
      rw [e] at h
      linarith
  have hvr : value < getI x r := by
    rcases hup with h | h
    · exact absurd h (by omega)
    · exact h
  have hrlow : x.getD (r.toNat - 1) 0 ≤ value := by
    rcases hdown with h | h
    · exact absurd h (by omega)
    · have e : getI x (r - 1) = x.getD (r.toNat - 1) 0 := by
        unfold getI
        congr 1
        omega
      rw [e] at h
      exact h
  have hmin : ∀ i : ℕ, 1 ≤ i → (i : ℤ) < r → x.getD i 0 ≤ value := by
    intro i hi1 hir
    have hile : i ≤ r.toNat - 1 := by omega
    rcases lt_or_eq_of_le hile with hlt | heq
    · have hj : r.toNat - 1 < M := by omega
      exact le_of_lt (lt_of_lt_of_le (hsort i (r.toNat - 1) hlt hj) hrlow)
    · rw [heq]
      exact hrlow
  refine ⟨h1r, hrM1, hvr, hmin, ?_⟩
  intro i hi0 hiM hval
  have er : getI x r = x.getD r.toNat 0 := rfl
  rw [er] at hvr
  have hge : (i : ℤ) + 1 ≤ r := by
    by_contra hlt2
    rcases lt_or_eq_of_le (show r.toNat ≤ i by omega) with hh | hh
    · have hs := hsort r.toNat i hh (by omega)
      rw [← hval] at hs
      linarith
    · rw [hh, ← hval] at hvr
      exact lt_irrefl _ hvr
  have hle : r ≤ (i : ℤ) + 1 := by
    by_contra hgt2
    have hlt3 : i < r.toNat - 1 := by omega
    have hs := hsort i (r.toNat - 1) hlt3 (by omega)
    rw [← hval] at hs
    linarith
  omega

/-- Witness for C2: `x = [0, 1, 2, 3]`, `M = 4`, `value = 1` (equal to the
interior knot `x[1]`), so the search returns `2`. -/
theorem search_sorted_least_witness :
    1 ≤ search_sorted 4 [0, 1, 2, 3] 1 ∧
    search_sorted 4 [0, 1, 2, 3] 1 ≤ (4 : ℤ) - 1 ∧
    (1 : ℚ) < getI [0, 1, 2, 3] (search_sorted 4 [0, 1, 2, 3] 1) ∧
    (∀ i : ℕ, 1 ≤ i → (i : ℤ) < search_sorted 4 [0, 1, 2, 3] 1 →
      ([0, 1, 2, 3] : List ℚ).getD i 0 ≤ 1) ∧
    (∀ i : ℕ, 0 < i → i < 4 - 1 → (1 : ℚ) = ([0, 1, 2, 3] : List ℚ).getD i 0 →
      search_sorted 4 [0, 1, 2, 3] 1 = (i : ℤ) + 1) :=
  search_sorted_least [0, 1, 2, 3] 1 4 rfl (by norm_num)
    (by
      intro i j hij hj
      interval_cases j <;> interval_cases i <;> revert hij <;>
        with_unfolding_all decide)
    (by with_unfolding_all decide) (by with_unfolding_all decide)
